import Mathlib

/-
Shallow embedding of `solicitacao.py` (room request system).

Strings are modelled as `List Char` (`Str`).  Python functions from the
source are translated under their source names where possible:
`str_to_time`, `time_to_minutes`, `intervals_overlap`, `re_split_days`,
`processar_alocacoes` (its occupancy-store effect), the request handler
inside `interface_interativa` (here `solicitar_sala`), and the grid
fill / vertical-merge pass of `criar_workbook_horario_sala`.

Modelling conventions:
* Machine times are minute counts (`Nat`); calendar dates are day numbers
  (`Nat`) where day 0 is a Monday, matching pandas `dayofweek` (Monday = 0).
* Fallible Python code (a raised exception, e.g. `time_to_minutes(None)`)
  is modelled with `Option`: `none` means the Python code raises.
* `datetime.strptime` for the fixed formats `%H:%M:%S`, `%H:%M`, `%H.%M`
  is modelled by its regex semantics: the string must split at the literal
  separator into exactly the right number of fields, each field being one
  digit, or two digits whose value is within the field's range
  (`%H`: 00-23, `%M`: 00-59, `%S`: with the subsequent `datetime`
  construction, 00-59).  ASCII digits only.
* Excel cell labels "HH:MM - HH:MM" used by the grid builder are in
  bijection with pairs of minute counts (the `%02d` formatting of values
  below 100 is injective), so grid slot labels are modelled as
  `Nat × Nat` pairs (slot start minute, slot end minute).
* `openpyxl` `merge_cells` over rows `a..b` of a column keeps the value of
  the top cell and turns the remaining cells into `MergedCell`s whose read
  value is `None` (`_clean_merge_range`, which runs unconditionally);
  the range itself is stored through `MultiCellRange.add`, which is
  guarded by `if cr not in self` where `__contains__` is subset
  containment, so a range already contained in a stored merged range is
  not added.  A grid column is therefore a `List (Option Str)` of cell
  values together with a `List (Nat × Nat)` of stored merged row ranges
  (all of the code's merge ranges live in a single column, so a range is
  its row interval and containment is interval inclusion).
-/

namespace SolicitacaoSalas

abbrev Str := List Char

def str (s : String) : Str := s.data

/-- ASCII whitespace, as stripped by Python `str.strip()` / split by `\s`. -/
def pySpace (c : Char) : Bool :=
  c = ' ' || c = '\t' || c = '\n' || c = '\r' || c = '\x0b' || c = '\x0c'

/-- Python `str.strip()` (ASCII whitespace). -/
def pyStrip (s : Str) : Str :=
  ((s.dropWhile pySpace).reverse.dropWhile pySpace).reverse

/-- Python `str.upper()` (ASCII letters). -/
def pyUpper (s : Str) : Str := s.map Char.toUpper

/-- Python `str.split(sep)` for a one-character separator. -/
def splitChar (sep : Char) : Str → List Str
  | [] => [[]]
  | c :: cs =>
    let r := splitChar sep cs
    if c = sep then [] :: r
    else
      match r with
      | [] => [[c]]
      | t :: ts => (c :: t) :: ts

/-- Split at every character satisfying `p` (empty pieces kept). -/
def splitPred (p : Char → Bool) : Str → List Str
  | [] => [[]]
  | c :: cs =>
    let r := splitPred p cs
    if p c then [] :: r
    else
      match r with
      | [] => [[c]]
      | t :: ts => (c :: t) :: ts

/-- One `strptime` numeric field (`%H`/`%M`/`%S`): one digit, or two digits
whose value is at most `maxv`. -/
def parse2 (maxv : Nat) : Str → Option Nat
  | [c] => if c.isDigit then some (c.toNat - 48) else none
  | [c1, c2] =>
    if c1.isDigit ∧ c2.isDigit ∧ 10 * (c1.toNat - 48) + (c2.toNat - 48) ≤ maxv then
      some (10 * (c1.toNat - 48) + (c2.toNat - 48))
    else none
  | _ => none

/-- Result of `datetime.strptime(...).time()`. -/
structure PyTime where
  hour : Nat
  minute : Nat
  second : Nat
deriving DecidableEq

/-- `datetime.strptime(s, "%H:%M:%S").time()` (seconds 60/61 match the
regex but are rejected by the `datetime` constructor, so they fail). -/
def parseHMS (s : Str) : Option PyTime :=
  match splitChar ':' s with
  | [h, m, sec] => do
    let hv ← parse2 23 h
    let mv ← parse2 59 m
    let sv ← parse2 59 sec
    pure ⟨hv, mv, sv⟩
  | _ => none

/-- `datetime.strptime(s, "%H:%M").time()`. -/
def parseHM (s : Str) : Option PyTime :=
  match splitChar ':' s with
  | [h, m] => do
    let hv ← parse2 23 h
    let mv ← parse2 59 m
    pure ⟨hv, mv, 0⟩
  | _ => none

/-- `datetime.strptime(s, "%H.%M").time()`. -/
def parseHdotM (s : Str) : Option PyTime :=
  match splitChar '.' s with
  | [h, m] => do
    let hv ← parse2 23 h
    let mv ← parse2 59 m
    pure ⟨hv, mv, 0⟩
  | _ => none

/-- `str_to_time` (source lines 26-43), string branch: strip, then try
`%H:%M:%S`, `%H:%M`, `%H.%M` in order; as a last resort keep only digits
and `:` (`re.sub(r'[^0-9:]', '', s)`) and retry `%H:%M`. -/
def str_to_time (s0 : Str) : Option PyTime :=
  (parseHMS (pyStrip s0)).orElse fun _ =>
    (parseHM (pyStrip s0)).orElse fun _ =>
      (parseHdotM (pyStrip s0)).orElse fun _ =>
        parseHM ((pyStrip s0).filter fun c => c.isDigit || c = ':')

/-- `time_to_minutes` (source lines 52-53). -/
def time_to_minutes (t : PyTime) : Nat := t.hour * 60 + t.minute

/-- `intervals_overlap` (source lines 55-60).  The Python function parses
its four string arguments; if any parse returns `None`,
`time_to_minutes(None)` raises, modelled as `none`. -/
def intervals_overlap (aStart aEnd bStart bEnd : Str) : Option Bool := do
  let aS ← str_to_time aStart
  let aE ← str_to_time aEnd
  let bS ← str_to_time bStart
  let bE ← str_to_time bEnd
  pure (decide (max (time_to_minutes aS) (time_to_minutes bS) <
                min (time_to_minutes aE) (time_to_minutes bE)))

/-- Python `f"{n:02d}"` for `n < 100`. -/
def two_digits (n : Nat) : Str :=
  [Char.ofNat (48 + n / 10), Char.ofNat (48 + n % 10)]

/-- `t.strftime("%H:%M")`. -/
def strftimeHM (t : PyTime) : Str :=
  two_digits t.hour ++ ':' :: two_digits t.minute

/-- The six weekday keys of `DIAS_SEMANA` plus Sunday, which the mapping in
`interface_interativa` can produce (`'SUNDAY': 'DOMINGO'`). -/
inductive Weekday
  | segunda
  | terca
  | quarta
  | quinta
  | sexta
  | sabado
  | domingo
deriving DecidableEq

def weekdays : List Weekday :=
  [.segunda, .terca, .quarta, .quinta, .sexta, .sabado, .domingo]

/-- Weekday of a calendar date (day 0 is a Monday), i.e. pandas
`dayofweek` composed with the English-to-Portuguese `mapping` of
`interface_interativa`. -/
def weekdayOf (d : Nat) : Weekday :=
  match d % 7 with
  | 0 => .segunda
  | 1 => .terca
  | 2 => .quarta
  | 3 => .quinta
  | 4 => .sexta
  | 5 => .sabado
  | _ => .domingo

/-- Membership test in `INDICE_DIAS` (keys `DIAS_SEMANA`, six days), and
the day each valid token denotes. -/
def tokenToWeekday6 (t : Str) : Option Weekday :=
  if t = str "SEGUNDA" then some .segunda
  else if t = str "TERÇA" then some .terca
  else if t = str "QUARTA" then some .quarta
  else if t = str "QUINTA" then some .quinta
  else if t = str "SEXTA" then some .sexta
  else if t = str "SÁBADO" then some .sabado
  else none

/-- A stored occupancy entry `(inicio_str, fim_str, descricao)`. -/
abbrev Booking := Str × Str × Str

/-- One room record as built by `criar_lista_salas`:
`HORARIOS_OCUPADOS_SEMANA` (dict weekday -> list of bookings; `.get`
with default `[]` and `.setdefault` make it total over all seven keys)
and `RESERVAS` (manual reservations `(data, inicio, fim, descricao)`).
The write-only `HORARIOS_OCUPADOS` set and `DATAS` are never read by the
logic under verification and are omitted. -/
structure Sala where
  nome : Str
  capacidade : Nat
  horariosSemana : Weekday → List Booking
  reservas : List (Nat × Str × Str × Str)

/-- One entry of `criar_lista_salas`. -/
def criar_sala (nome : Str) (cap : Nat) : Sala :=
  ⟨nome, cap, fun _ => [], []⟩

/-- Append a booking to one weekday's list
(`HORARIOS_OCUPADOS_SEMANA[dia].append(...)`). -/
def updateSemana (f : Weekday → List Booking) (w : Weekday) (b : Booking) :
    Weekday → List Booking :=
  fun w' => if w' = w then f w' ++ [b] else f w'

/-- `pd.date_range(s, e)` (daily frequency): the inclusive day range, empty
when `e < s`. -/
def date_range (s e : Nat) : List Nat :=
  (List.range (e + 1 - s)).map (s + ·)

/-- The list of dates checked by the request handler (source lines 369-380):
with an end date and a nonempty weekday multiselect, the day range filtered
to the chosen weekdays; otherwise the single start date. -/
def datas_a_verificar (usaFim : Bool) (dataIni : Nat) (dataFim : Option Nat)
    (diasEvento : List Weekday) : List Nat :=
  match usaFim, dataFim with
  | true, some df =>
    if diasEvento ≠ [] then
      (date_range dataIni df).filter fun d => decide (weekdayOf d ∈ diasEvento)
    else [dataIni]
  | _, _ => [dataIni]

/-- Conflicts of the candidate interval against one day's stored bookings
(inner loop of source lines 383-388). -/
def conflitosDia (data : Nat) (books : List Booking) (ini fim : Str) :
    Option (List (Nat × Str × Str × Str)) :=
  match books with
  | [] => some []
  | (a, b, desc) :: rest => do
    let ov ← intervals_overlap a b ini fim
    let tail ← conflitosDia data rest ini fim
    pure (if ov then (data, a, b, desc) :: tail else tail)

/-- The full conflict list over every checked date (source lines 383-388). -/
def findConflitos (sala : Sala) (datas : List Nat) (ini fim : Str) :
    Option (List (Nat × Str × Str × Str)) :=
  match datas with
  | [] => some []
  | d :: rest => do
    let c ← conflitosDia d (sala.horariosSemana (weekdayOf d)) ini fim
    let cs ← findConflitos sala rest ini fim
    pure (c ++ cs)

/-- Recording loop of the accept branch (source lines 396-402): every
checked date is appended to `RESERVAS` and to its weekday's list. -/
def gravarDatas (sala : Sala) (datas : List Nat) (ini fim desc : Str) : Sala :=
  match datas with
  | [] => sala
  | d :: rest =>
    gravarDatas
      { sala with
        reservas := sala.reservas ++ [(d, ini, fim, desc)]
        horariosSemana := updateSemana sala.horariosSemana (weekdayOf d) (ini, fim, desc) }
      rest ini fim desc

/-- Event description used on accept (source line 394). -/
def descOf (evento : Str) : Str :=
  if pyStrip evento ≠ [] then pyStrip evento else str "RESERVA_MANUAL"

inductive Resultado
  | rejeitado (conflitos : List (Nat × Str × Str × Str))
  | aceito (numDias : Nat)

/-- The request handler behind the `Solicitar Sala` button (source lines
363-404): build the date list, collect all conflicts, and either reject
with the full conflict list (no mutation) or record every date.  `none`
models a raised exception inside the conflict loop. -/
def solicitar_sala (sala : Sala) (usaFim : Bool) (dataIni : Nat)
    (dataFim : Option Nat) (diasEvento : List Weekday) (ini fim evento : Str) :
    Option (Sala × Resultado) := do
  let cs ← findConflitos sala (datas_a_verificar usaFim dataIni dataFim diasEvento) ini fim
  if cs ≠ [] then pure (sala, Resultado.rejeitado cs)
  else
    pure
      (gravarDatas sala (datas_a_verificar usaFim dataIni dataFim diasEvento) ini fim
        (descOf evento),
       Resultado.aceito (datas_a_verificar usaFim dataIni dataFim diasEvento).length)

/-- Separator characters of `re_split_days`' pattern
`[;,/\\]+|\s{2,}|\s`. -/
def isSepDia (c : Char) : Bool :=
  c = ';' || c = ',' || c = '/' || c = '\\' || pySpace c

/-- `re_split_days` (source lines 117-119) followed by its comprehension
filter: every maximal run of separator characters splits, empty pieces are
dropped (the regex consumes mixed separator runs as several separators,
producing empty pieces that the comprehension `[p for p in parts if p]`
removes, so splitting at each separator character is equivalent). -/
def re_split_days (s : Str) : List Str :=
  (splitPred isSepDia s).filter (· ≠ [])

/-- One allocation row of the spreadsheet, restricted to the fields read by
`processar_alocacoes`.  `horarioInicio`/`horarioFinal` stand for the column
fallback chains (`HORARIO INICIO` / `HORARIO` / ..., a missing column being
the empty string, which fails to parse like `None`), `horarioRaw` for
`HORARIO`. -/
structure Alocacao where
  status : Str
  sala : Str
  dias : Str
  horarioInicio : Str
  horarioFinal : Str
  horarioRaw : Str
  codigo : Str
  disciplina : Str
  turma : Str
  professor : Str

/-- Description string built at source lines 159-164. -/
def descricaoDe (a : Alocacao) : Str :=
  a.codigo ++ str " - " ++ a.disciplina ++ str " - " ++ a.turma ++ str " - " ++ a.professor

/-- Mutate the first list entry whose `NOME` matches
(`next((s for s in salas_ct if s["NOME"] == sala), None)`). -/
def updateFirst (salas : List Sala) (nome : Str) (f : Sala → Sala) : List Sala :=
  match salas with
  | [] => []
  | s :: rest => if s.nome = nome then f s :: rest else s :: updateFirst rest nome f

/-- Fallback parsing of one block of the raw `HORARIO` column (source lines
195-208): `bloco.split()` must have at least two parts, the hour part must
split on `-` into exactly two pieces (otherwise the `except` skips the
block), and the day token must be one of the six `DIAS_SEMANA`. -/
def processarBloco (so : Sala) (desc : Str) (bloco : Str) : Sala :=
  match (splitPred pySpace bloco).filter (· ≠ []) with
  | p0 :: p1 :: _ =>
    match splitChar '-' p1 with
    | [h1, h2] =>
      match tokenToWeekday6 (pyUpper p0) with
      | some w => { so with horariosSemana := updateSemana so.horariosSemana w (h1, h2, desc) }
      | none => so
    | _ => so
  | _ => so

/-- Occupancy-store effect of one row of `processar_alocacoes` (source
lines 138-208; the returned DataFrame of `registros` is rendering-only
and out of scope).  Only rows with status `ALOCADA`, a nonempty room name,
and at least one valid weekday token touch the store; with parseable
start/end times each valid weekday gets the formatted interval appended,
otherwise each valid weekday triggers the raw `HORARIO` block fallback. -/
def processar_registro (salas : List Sala) (aloc : Alocacao) : List Sala :=
  if pyUpper (pyStrip aloc.status) ≠ str "ALOCADA" then salas
  else
    let sala := pyStrip aloc.sala
    if sala = [] then salas
    else if pyStrip aloc.dias = [] then salas
    else
      let diasValidos :=
        ((re_split_days (pyStrip aloc.dias)).map fun t => pyUpper (pyStrip t)).filterMap
          tokenToWeekday6
      if diasValidos = [] then salas
      else
        let desc := descricaoDe aloc
        updateFirst salas sala fun so =>
          diasValidos.foldl
            (fun s2 w =>
              match str_to_time aloc.horarioInicio, str_to_time aloc.horarioFinal with
              | some it, some ft =>
                { s2 with
                  horariosSemana :=
                    updateSemana s2.horariosSemana w (strftimeHM it, strftimeHM ft, desc) }
              | _, _ =>
                (((splitChar ',' aloc.horarioRaw).map pyStrip).filter (· ≠ [])).foldl
                  (fun s3 bloco => processarBloco s3 desc bloco) s2)
            so

/-- `processar_alocacoes` over all rows (store effect). -/
def processar_alocacoes (alocs : List Alocacao) (salas : List Sala) : List Sala :=
  alocs.foldl processar_registro salas

/-- Both stored time strings of a booking parse (normal-operation
assumption; the interactive conflict loop raises otherwise). -/
def parsesB (b : Booking) : Prop :=
  (str_to_time b.1).isSome = true ∧ (str_to_time b.2.1).isSome = true

instance (b : Booking) : Decidable (parsesB b) :=
  inferInstanceAs
    (Decidable ((str_to_time b.1).isSome = true ∧ (str_to_time b.2.1).isSome = true))

/-- Claim-side invariant of C1: no two bookings stored for the same weekday
of a room have overlapping intervals. -/
def semSobreposicao (sala : Sala) : Prop :=
  ∀ w : Weekday,
    (sala.horariosSemana w).Pairwise fun b1 b2 =>
      intervals_overlap b1.1 b1.2.1 b2.1 b2.2.1 ≠ some true

/-- Start minute of a stored booking (claim side of C7). -/
def inicioMin (b : Booking) : Nat :=
  time_to_minutes ((str_to_time b.1).getD ⟨0, 0, 0⟩)

/-- Claim-side property of C7: every weekday list ascending by start time. -/
def ordenadoPorInicio (sala : Sala) : Prop :=
  ∀ w : Weekday,
    List.Chain' (fun b1 b2 => inicioMin b1 ≤ inicioMin b2) (sala.horariosSemana w)

/-- The 30 grid slots `horas_minutos` of `criar_workbook_horario_sala`
(source lines 215-218), as (start minute, end minute) pairs standing for
the labels `"HH:MM - HH:MM"`, `h` from 7 to 21. -/
def horas_minutos : List (Nat × Nat) :=
  (List.range 15).flatMap fun j => [(420 + 60 * j, 450 + 60 * j), (450 + 60 * j, 480 + 60 * j)]

/-- Python `list.index` returning `none` instead of raising `ValueError`
(the source catches it and skips the slot). -/
def list_index : List (Nat × Nat) → (Nat × Nat) → Option Nat
  | [], _ => none
  | x :: xs, y => if x = y then some 0 else (list_index xs y).map (· + 1)

/-- Helper view of the grid slots as a chain of 30-minute steps. -/
def slotList : Nat → Nat → List (Nat × Nat)
  | _, 0 => []
  | a, n + 1 => (a, a + 30) :: slotList (a + 30) n

/-- Fill loop for one booking (source lines 246-254, reduced to the slot
indices it writes): walk in 30-minute steps from the booking's start,
look the chunk label up in `horas_minutos`, skip chunks whose label is
absent. -/
def fillRows (start stop : Nat) : List Nat :=
  if h : start < stop then
    match list_index horas_minutos (start, start + 30) with
    | some i => i :: fillRows (start + 30) stop
    | none => fillRows (start + 30) stop
  else []
termination_by stop - start
decreasing_by all_goals omega

/-- Claim-side predicate of C5: slot `i`'s half-open range
`[slotStart, slotEnd)` intersects the booking's interval `[s, e)`. -/
def slot_intersects (i s e : Nat) : Bool :=
  decide (max (420 + 30 * i) s < min (450 + 30 * i) e)

/-- Python `cur_val not in (None, "")`. -/
def isFilled : Option Str → Bool
  | none => false
  | some s => decide (s ≠ [])

/-- Scan of the vertical merge pass over one column (source lines 286-297),
0-based: emit the merged range at each value change and at the end of the
column.  Arguments: run start row, current run value, current row, cells
left. -/
def scanRuns : Nat → Option Str → Nat → List (Option Str) → List (Nat × Nat)
  | start, cur, i, [] => if isFilled cur ∧ start ≤ i - 1 then [(start, i - 1)] else []
  | start, cur, i, v :: rest =>
    if v ≠ cur then
      (if isFilled cur ∧ start ≤ i - 1 then [(start, i - 1)] else []) ++
        scanRuns i v (i + 1) rest
    else scanRuns start cur (i + 1) rest

/-- Merged ranges emitted by one merge pass over a column. -/
def mergeRanges (vals : List (Option Str)) : List (Nat × Nat) :=
  scanRuns 0 (vals.headD none) 0 vals

/-- Effect of `ws.merge_cells` on cell values: every cell of the range but
the top one reads as `None` afterwards. -/
def clearFrom (r : Nat × Nat) (j : Nat) : List (Option Str) → List (Option Str)
  | [] => []
  | v :: rest => (if r.1 < j ∧ j ≤ r.2 then none else v) :: clearFrom r (j + 1) rest

def clearRange (vals : List (Option Str)) (r : Nat × Nat) : List (Option Str) :=
  clearFrom r 0 vals

/-- Cell values of a column after one merge pass. -/
def mergePassVals (vals : List (Option Str)) : List (Option Str) :=
  List.foldl clearRange vals (mergeRanges vals)

/-- Subset-containment test of `MultiCellRange.__contains__` for the
single-column ranges the merge pass emits: the row interval of `r` lies
inside the row interval of some stored range. -/
def containsRange (rs : List (Nat × Nat)) (r : Nat × Nat) : Bool :=
  rs.any fun r0 => decide (r0.1 ≤ r.1) && decide (r.2 ≤ r0.2)

/-- `MultiCellRange.add`: append the range unless it is already contained
in a stored one (`if cr not in self: self.ranges.append(cr)`). -/
def addRange (rs : List (Nat × Nat)) (r : Nat × Nat) : List (Nat × Nat) :=
  if containsRange rs r then rs else rs ++ [r]

/-- One merge pass on a column's worksheet state (cell values plus the
stored merged ranges).  `_clean_merge_range` blanks the non-top cells of
every emitted range regardless of whether `MultiCellRange.add` stores it,
so the value component clears unconditionally while the range component
goes through the guarded add. -/
def mergeGrid (g : List (Option Str) × List (Nat × Nat)) :
    List (Option Str) × List (Nat × Nat) :=
  (mergePassVals g.1, List.foldl addRange g.2 (mergeRanges g.1))

/-- Does some emitted range cover row `j` as a non-top row (i.e. clear it)? -/
def covered (rs : List (Nat × Nat)) (j : Nat) : Bool :=
  rs.any fun r => decide (r.1 < j) && decide (j ≤ r.2)

/-- No cell equals a filled cell directly above it. -/
def P8 (a b : Option Str) : Prop := ¬(b = a ∧ isFilled b = true)

/-- Two concrete `ALOCADA` spreadsheet rows for room 101 on Monday with
overlapping times 08:00-10:00 and 09:00-11:00 (both admitted by bulk
ingestion, which performs no conflict check). -/
def aloc8h : Alocacao :=
  ⟨str "ALOCADA", str "101", str "SEGUNDA", str "08:00", str "10:00", str "",
   str "MAT1", str "CALCULO", str "T1", str "ANA"⟩

def aloc9h : Alocacao :=
  ⟨str "ALOCADA", str "101", str "SEGUNDA", str "09:00", str "11:00", str "",
   str "FIS1", str "FISICA", str "T2", str "BIA"⟩

def salasCex : List Sala := processar_alocacoes [aloc8h, aloc9h] [criar_sala (str "101") 40]

/-- Store of room 101 after one booked reservation 08:00-10:00 on date 0
(a Monday); used to exercise the interactive request path on concrete
inputs. -/
def salaOcupada : Sala :=
  gravarDatas (criar_sala (str "101") 40) [0] (str "08:00") (str "10:00") (str "AULA")

/-- Room state after accepting 10:00-11:00 and then 08:00-09:00 on the same
Monday: the per-weekday list ends up in insertion order, not start order. -/
def salaDesordenada : Sala :=
  ((solicitar_sala
      ((solicitar_sala (criar_sala (str "101") 40) false 0 none [] (str "10:00")
          (str "11:00") (str "EV1")).getD (criar_sala [] 0, Resultado.aceito 0)).1
      false 0 none [] (str "08:00") (str "09:00") (str "EV2")).getD
    (criar_sala [] 0, Resultado.aceito 0)).1

/-! ### Helper lemmas about the time parser and the overlap predicate -/

theorem isDigit_toNat {c : Char} (h : c.isDigit = true) : 48 ≤ c.toNat ∧ c.toNat ≤ 57 := by
  simp only [Char.isDigit, Bool.and_eq_true, decide_eq_true_eq, ge_iff_le] at h
  obtain ⟨h1, h2⟩ := h
  exact ⟨UInt32.le_toNat_of_le (by decide) h1, UInt32.toNat_le_of_le (by decide) h2⟩

theorem parse2_le {m : Nat} (h9 : 9 ≤ m) {cs : Str} {v : Nat}
    (h : parse2 m cs = some v) : v ≤ m := by
  match cs with
  | [] => simp [parse2] at h
  | [c] =>
    simp only [parse2] at h
    split at h
    · rename_i hd
      obtain rfl : c.toNat - 48 = v := by simpa using h
      have := isDigit_toNat hd
      omega
    · simp at h
  | [c1, c2] =>
    simp only [parse2] at h
    split at h
    · rename_i hcond
      obtain rfl : 10 * (c1.toNat - 48) + (c2.toNat - 48) = v := by simpa using h
      omega
    · simp at h
  | c1 :: c2 :: c3 :: rest => simp [parse2] at h

theorem parseHM_range {s : Str} {t : PyTime} (h : parseHM s = some t) :
    t.hour ≤ 23 ∧ t.minute ≤ 59 := by
  unfold parseHM at h
  split at h
  · simp only [bind, Option.bind_eq_some, Option.pure_def, Option.some_inj] at h
    obtain ⟨hv, hhv, mv, hmv, ht⟩ := h
    subst ht
    exact ⟨parse2_le (by omega) hhv, parse2_le (by omega) hmv⟩
  · simp at h

theorem parseHMS_range {s : Str} {t : PyTime} (h : parseHMS s = some t) :
    t.hour ≤ 23 ∧ t.minute ≤ 59 := by
  unfold parseHMS at h
  split at h
  · simp only [bind, Option.bind_eq_some, Option.pure_def, Option.some_inj] at h
    obtain ⟨hv, hhv, mv, hmv, sv, hsv, ht⟩ := h
    subst ht
    exact ⟨parse2_le (by omega) hhv, parse2_le (by omega) hmv⟩
  · simp at h

theorem parseHdotM_range {s : Str} {t : PyTime} (h : parseHdotM s = some t) :
    t.hour ≤ 23 ∧ t.minute ≤ 59 := by
  unfold parseHdotM at h
  split at h
  · simp only [bind, Option.bind_eq_some, Option.pure_def, Option.some_inj] at h
    obtain ⟨hv, hhv, mv, hmv, ht⟩ := h
    subst ht
    exact ⟨parse2_le (by omega) hhv, parse2_le (by omega) hmv⟩
  · simp at h

theorem str_to_time_range {s : Str} {t : PyTime} (h : str_to_time s = some t) :
    t.hour ≤ 23 ∧ t.minute ≤ 59 := by
  unfold str_to_time at h
  cases h1 : parseHMS (pyStrip s) with
  | some t1 =>
    rw [h1] at h
    simp only [Option.orElse] at h
    cases h
    exact parseHMS_range h1
  | none =>
    rw [h1] at h
    simp only [Option.orElse] at h
    cases h2 : parseHM (pyStrip s) with
    | some t2 =>
      rw [h2] at h
      simp only [Option.orElse] at h
      cases h
      exact parseHM_range h2
    | none =>
      rw [h2] at h
      simp only [Option.orElse] at h
      cases h3 : parseHdotM (pyStrip s) with
      | some t3 =>
        rw [h3] at h
        simp only [Option.orElse] at h
        cases h
        exact parseHdotM_range h3
      | none =>
        rw [h3] at h
        simp only [Option.orElse] at h
        exact parseHM_range h

theorem intervals_overlap_eq {aS aE bS bE : Str} {ta tb tc td : PyTime}
    (h1 : str_to_time aS = some ta) (h2 : str_to_time aE = some tb)
    (h3 : str_to_time bS = some tc) (h4 : str_to_time bE = some td) :
    intervals_overlap aS aE bS bE =
      some (decide (max (time_to_minutes ta) (time_to_minutes tc) <
                    min (time_to_minutes tb) (time_to_minutes td))) := by
  simp [intervals_overlap, h1, h2, h3, h4]

theorem intervals_overlap_symm (aS aE bS bE : Str) :
    intervals_overlap aS aE bS bE = intervals_overlap bS bE aS aE := by
  unfold intervals_overlap
  cases hA : str_to_time aS <;> cases hB : str_to_time aE <;>
    cases hC : str_to_time bS <;> cases hD : str_to_time bE <;>
      simp only [Option.bind_eq_bind, Option.none_bind, Option.some_bind, Option.pure_def] <;>
      try rfl
  rw [Nat.max_comm, Nat.min_comm]

/-! ### Claim theorems C2 and C4 -/

/-- C2: the overlap predicate computes exactly
`max(a.start, b.start) < min(a.end, b.end)` over the parsed minute values;
it is symmetric in its two intervals for all inputs; and intervals that
merely touch at an endpoint (09:00-10:00 against 10:00-11:00) do not
overlap. -/
theorem c2_overlap_max_min :
    (∀ aS aE bS bE (ta tb tc td : PyTime),
        str_to_time aS = some ta → str_to_time aE = some tb →
        str_to_time bS = some tc → str_to_time bE = some td →
        intervals_overlap aS aE bS bE =
          some (decide (max (time_to_minutes ta) (time_to_minutes tc) <
                        min (time_to_minutes tb) (time_to_minutes td)))) ∧
    (∀ aS aE bS bE, intervals_overlap aS aE bS bE = intervals_overlap bS bE aS aE) ∧
    intervals_overlap (str "09:00") (str "10:00") (str "10:00") (str "11:00") = some false :=
  ⟨fun _ _ _ _ _ _ _ _ h1 h2 h3 h4 => intervals_overlap_eq h1 h2 h3 h4,
   intervals_overlap_symm, by decide⟩

theorem c2_overlap_max_min_witness :
    intervals_overlap (str "08:00") (str "10:00") (str "09:00") (str "11:00") =
      some (decide (max (time_to_minutes ⟨8, 0, 0⟩) (time_to_minutes ⟨9, 0, 0⟩) <
                    min (time_to_minutes ⟨10, 0, 0⟩) (time_to_minutes ⟨11, 0, 0⟩))) :=
  c2_overlap_max_min.1 (str "08:00") (str "10:00") (str "09:00") (str "11:00")
    ⟨8, 0, 0⟩ ⟨10, 0, 0⟩ ⟨9, 0, 0⟩ ⟨11, 0, 0⟩ (by decide) (by decide) (by decide) (by decide)

/-- C4: the time parser is exactly the ordered fallback chain
`%H:%M:%S`, then `%H:%M`, then `%H.%M`, then strip-to-digits-and-colon and
retry `%H:%M`; every successful parse is within [00:00, 23:59]; and
"07.30" parses to 07:30 rather than failing. -/
theorem c4_parser_chain :
    (∀ s, str_to_time s =
        (parseHMS (pyStrip s)).orElse fun _ =>
          (parseHM (pyStrip s)).orElse fun _ =>
            (parseHdotM (pyStrip s)).orElse fun _ =>
              parseHM ((pyStrip s).filter fun c => c.isDigit || c = ':')) ∧
    (∀ s t, str_to_time s = some t → t.hour ≤ 23 ∧ t.minute ≤ 59) ∧
    str_to_time (str "07.30") = some ⟨7, 30, 0⟩ :=
  ⟨fun _ => rfl, fun _ _ h => str_to_time_range h, by decide⟩

theorem c4_parser_chain_witness :
    (⟨9, 5, 0⟩ : PyTime).hour ≤ 23 ∧ (⟨9, 5, 0⟩ : PyTime).minute ≤ 59 :=
  c4_parser_chain.2.1 (str "9:05") ⟨9, 5, 0⟩ (by decide)

/-! ### Helper lemmas about the request flow -/

theorem intervals_overlap_parses {aS aE bS bE : Str} {v : Bool}
    (h : intervals_overlap aS aE bS bE = some v) :
    (str_to_time aS).isSome = true ∧ (str_to_time aE).isSome = true ∧
      (str_to_time bS).isSome = true ∧ (str_to_time bE).isSome = true := by
  unfold intervals_overlap at h
  cases hA : str_to_time aS with
  | none => rw [hA] at h; simp at h
  | some ta =>
    rw [hA] at h
    cases hB : str_to_time aE with
    | none => rw [hB] at h; simp at h
    | some tb =>
      rw [hB] at h
      cases hC : str_to_time bS with
      | none => rw [hC] at h; simp at h
      | some tc =>
        rw [hC] at h
        cases hD : str_to_time bE with
        | none => rw [hD] at h; simp at h
        | some td => exact ⟨by simp [hA], by simp [hB], by simp [hC], by simp [hD]⟩

theorem conflitosDia_mem {d : Nat} {books : List Booking} {ini fim : Str}
    {L : List (Nat × Str × Str × Str)} (h : conflitosDia d books ini fim = some L) :
    ∀ d' a b ds, (d', a, b, ds) ∈ L ↔
      d' = d ∧ (a, b, ds) ∈ books ∧ intervals_overlap a b ini fim = some true := by
  induction books generalizing L with
  | nil =>
    obtain rfl : ([] : List (Nat × Str × Str × Str)) = L := by
      simpa [conflitosDia] using h
    simp
  | cons hd tl ih =>
    obtain ⟨a0, b0, ds0⟩ := hd
    unfold conflitosDia at h
    simp only [bind, Option.bind_eq_some, Option.pure_def, Option.some_inj] at h
    obtain ⟨ov, hov, tail, htail, hL⟩ := h
    subst hL
    intro d' a b ds
    have iht := ih htail d' a b ds
    cases ov with
    | false =>
      simp only [Bool.false_eq_true, if_false]
      constructor
      · intro hmem
        obtain ⟨rfl, hm, ho⟩ := iht.mp hmem
        exact ⟨rfl, List.mem_cons_of_mem _ hm, ho⟩
      · rintro ⟨rfl, hm, ho⟩
        rcases List.mem_cons.mp hm with heq | hm'
        · simp only [Prod.mk.injEq] at heq
          obtain ⟨rfl, rfl, rfl⟩ := heq
          rw [ho] at hov
          simp at hov
        · exact iht.mpr ⟨rfl, hm', ho⟩
    | true =>
      simp only [if_true]
      constructor
      · intro hmem
        rcases List.mem_cons.mp hmem with heq | hmem'
        · simp only [Prod.mk.injEq] at heq
          obtain ⟨rfl, rfl, rfl, rfl⟩ := heq
          exact ⟨rfl, List.mem_cons_self _ _, hov⟩
        · obtain ⟨rfl, hm, ho⟩ := iht.mp hmem'
          exact ⟨rfl, List.mem_cons_of_mem _ hm, ho⟩
      · rintro ⟨rfl, hm, ho⟩
        rcases List.mem_cons.mp hm with heq | hm'
        · simp only [Prod.mk.injEq] at heq
          obtain ⟨rfl, rfl, rfl⟩ := heq
          exact List.mem_cons_self _ _
        · exact List.mem_cons_of_mem _ (iht.mpr ⟨rfl, hm', ho⟩)

theorem findConflitos_mem {sala : Sala} {datas : List Nat} {ini fim : Str}
    {L : List (Nat × Str × Str × Str)} (h : findConflitos sala datas ini fim = some L) :
    ∀ d' a b ds, (d', a, b, ds) ∈ L ↔
      d' ∈ datas ∧ (a, b, ds) ∈ sala.horariosSemana (weekdayOf d') ∧
        intervals_overlap a b ini fim = some true := by
  induction datas generalizing L with
  | nil =>
    obtain rfl : ([] : List (Nat × Str × Str × Str)) = L := by
      simpa [findConflitos] using h
    simp
  | cons d tl ih =>
    unfold findConflitos at h
    simp only [bind, Option.bind_eq_some, Option.pure_def, Option.some_inj] at h
    obtain ⟨c, hc, cs, hcs, hL⟩ := h
    subst hL
    intro d' a b ds
    constructor
    · intro hmem
      rcases List.mem_append.mp hmem with hm | hm
      · obtain ⟨rfl, hmm, ho⟩ := (conflitosDia_mem hc d' a b ds).mp hm
        exact ⟨List.mem_cons_self _ _, hmm, ho⟩
      · obtain ⟨hd, hmm, ho⟩ := (ih hcs d' a b ds).mp hm
        exact ⟨List.mem_cons_of_mem _ hd, hmm, ho⟩
    · rintro ⟨hd, hmm, ho⟩
      rcases List.mem_cons.mp hd with rfl | hd'
      · exact List.mem_append.mpr (Or.inl ((conflitosDia_mem hc d' a b ds).mpr ⟨rfl, hmm, ho⟩))
      · exact List.mem_append.mpr (Or.inr ((ih hcs d' a b ds).mpr ⟨hd', hmm, ho⟩))

theorem conflitosDia_isSome {d : Nat} {books : List Booking} {ini fim : Str}
    (hi : (str_to_time ini).isSome = true) (hf : (str_to_time fim).isSome = true)
    (hb : ∀ b ∈ books, parsesB b) :
    (conflitosDia d books ini fim).isSome = true := by
  induction books with
  | nil => rfl
  | cons hd tl ih =>
    obtain ⟨a0, b0, ds0⟩ := hd
    obtain ⟨ha, hbe⟩ := hb _ (List.mem_cons_self _ _)
    obtain ⟨ta, hta⟩ := Option.isSome_iff_exists.mp ha
    obtain ⟨tb, htb⟩ := Option.isSome_iff_exists.mp hbe
    obtain ⟨ti, hti⟩ := Option.isSome_iff_exists.mp hi
    obtain ⟨tf, htf⟩ := Option.isSome_iff_exists.mp hf
    have h2 := ih fun x hx => hb x (List.mem_cons_of_mem _ hx)
    obtain ⟨L, hL⟩ := Option.isSome_iff_exists.mp h2
    unfold conflitosDia
    rw [intervals_overlap_eq hta htb hti htf]
    simp only [bind, Option.some_bind]
    rw [hL]
    simp

theorem findConflitos_isSome {sala : Sala} {datas : List Nat} {ini fim : Str}
    (hi : (str_to_time ini).isSome = true) (hf : (str_to_time fim).isSome = true)
    (hb : ∀ d ∈ datas, ∀ b ∈ sala.horariosSemana (weekdayOf d), parsesB b) :
    (findConflitos sala datas ini fim).isSome = true := by
  induction datas with
  | nil => rfl
  | cons d tl ih =>
    have h1 := conflitosDia_isSome (d := d) hi hf (hb d (List.mem_cons_self _ _))
    obtain ⟨c, hc⟩ := Option.isSome_iff_exists.mp h1
    have h2 := ih fun x hx => hb x (List.mem_cons_of_mem _ hx)
    obtain ⟨cs, hcs⟩ := Option.isSome_iff_exists.mp h2
    unfold findConflitos
    rw [hc]
    simp only [bind, Option.some_bind]
    rw [hcs]
    simp

theorem gravar_reservas (sala : Sala) (datas : List Nat) (ini fim desc : Str) :
    (gravarDatas sala datas ini fim desc).reservas =
      sala.reservas ++ datas.map fun d => (d, ini, fim, desc) := by
  induction datas generalizing sala with
  | nil => simp [gravarDatas]
  | cons d tl ih =>
    rw [gravarDatas, ih]
    simp

theorem gravar_semana (sala : Sala) (datas : List Nat) (ini fim desc : Str) (w : Weekday) :
    (gravarDatas sala datas ini fim desc).horariosSemana w =
      sala.horariosSemana w ++
        ((datas.filter fun d => decide (weekdayOf d = w)).map
          fun _ => ((ini, fim, desc) : Booking)) := by
  induction datas generalizing sala with
  | nil => simp [gravarDatas]
  | cons d tl ih =>
    rw [gravarDatas, ih]
    by_cases hw : w = weekdayOf d
    · subst hw
      simp [updateSemana, List.filter_cons]
    · have hw2 : ¬ weekdayOf d = w := fun hh => hw hh.symm
      simp [updateSemana, List.filter_cons, hw, hw2]

theorem solicitar_sala_rejeita {sala : Sala} {usaFim : Bool} {dataIni : Nat}
    {dataFim : Option Nat} {diasEvento : List Weekday} {ini fim evento : Str}
    {L : List (Nat × Str × Str × Str)}
    (h : findConflitos sala (datas_a_verificar usaFim dataIni dataFim diasEvento) ini fim =
      some L) (hL : L ≠ []) :
    solicitar_sala sala usaFim dataIni dataFim diasEvento ini fim evento =
      some (sala, Resultado.rejeitado L) := by
  unfold solicitar_sala
  rw [h]
  simp [hL]

theorem solicitar_sala_aceita {sala : Sala} {usaFim : Bool} {dataIni : Nat}
    {dataFim : Option Nat} {diasEvento : List Weekday} {ini fim evento : Str}
    (h : findConflitos sala (datas_a_verificar usaFim dataIni dataFim diasEvento) ini fim =
      some []) :
    solicitar_sala sala usaFim dataIni dataFim diasEvento ini fim evento =
      some
        (gravarDatas sala (datas_a_verificar usaFim dataIni dataFim diasEvento) ini fim
          (descOf evento),
         Resultado.aceito (datas_a_verificar usaFim dataIni dataFim diasEvento).length) := by
  unfold solicitar_sala
  rw [h]
  simp

theorem solicitar_sala_aceito_inv {sala : Sala} {usaFim : Bool} {dataIni : Nat}
    {dataFim : Option Nat} {diasEvento : List Weekday} {ini fim evento : Str}
    {sala' : Sala} {n : Nat}
    (h : solicitar_sala sala usaFim dataIni dataFim diasEvento ini fim evento =
      some (sala', Resultado.aceito n)) :
    findConflitos sala (datas_a_verificar usaFim dataIni dataFim diasEvento) ini fim =
        some [] ∧
      sala' =
        gravarDatas sala (datas_a_verificar usaFim dataIni dataFim diasEvento) ini fim
          (descOf evento) ∧
      n = (datas_a_verificar usaFim dataIni dataFim diasEvento).length := by
  unfold solicitar_sala at h
  cases hcs : findConflitos sala (datas_a_verificar usaFim dataIni dataFim diasEvento) ini fim with
  | none => rw [hcs] at h; simp at h
  | some L =>
    rw [hcs] at h
    simp only [bind, Option.some_bind] at h
    by_cases hL : L = []
    · subst hL
      simp at h
      obtain ⟨h1, h2⟩ := h
      exact ⟨rfl, h1.symm, h2.symm⟩
    · rw [if_pos hL] at h
      simp at h

/-! ### Claim theorems about the request flow -/

/-- C3: for a multi-day request, if the conflict scan over the resulting
dates returns a nonempty list, the whole request is rejected with exactly
that list and the store is returned unchanged; if it returns the empty
list, every resulting date is recorded (both in `RESERVAS` and in its
weekday's occupancy list); and the returned list contains precisely the
stored bookings, tagged with the checked date, that overlap the candidate
interval on that date's weekday. -/
theorem c3_tudo_ou_nada :
    ∀ sala usaFim dataIni dataFim diasEvento (ini fim evento : Str) datas L,
      datas = datas_a_verificar usaFim dataIni dataFim diasEvento →
      findConflitos sala datas ini fim = some L →
      ((L ≠ [] → solicitar_sala sala usaFim dataIni dataFim diasEvento ini fim evento =
          some (sala, Resultado.rejeitado L)) ∧
       (L = [] →
          solicitar_sala sala usaFim dataIni dataFim diasEvento ini fim evento =
              some (gravarDatas sala datas ini fim (descOf evento),
                    Resultado.aceito datas.length) ∧
            ∀ d ∈ datas,
              (ini, fim, descOf evento) ∈
                  (gravarDatas sala datas ini fim (descOf evento)).horariosSemana
                    (weekdayOf d) ∧
                (d, ini, fim, descOf evento) ∈
                  (gravarDatas sala datas ini fim (descOf evento)).reservas) ∧
       (∀ d' a b ds, (d', a, b, ds) ∈ L ↔
          d' ∈ datas ∧ (a, b, ds) ∈ sala.horariosSemana (weekdayOf d') ∧
            intervals_overlap a b ini fim = some true)) := by
  intro sala usaFim dataIni dataFim diasEvento ini fim evento datas L hdatas hL
  subst hdatas
  refine ⟨fun hne => solicitar_sala_rejeita hL hne, fun he => ?_, findConflitos_mem hL⟩
  subst he
  refine ⟨solicitar_sala_aceita hL, fun d hd => ⟨?_, ?_⟩⟩
  · rw [gravar_semana]
    refine List.mem_append.mpr (Or.inr ?_)
    exact List.mem_map.mpr ⟨d, List.mem_filter.mpr ⟨hd, by simp⟩, rfl⟩
  · rw [gravar_reservas]
    exact List.mem_append.mpr (Or.inr (List.mem_map.mpr ⟨d, hd, rfl⟩))

theorem c3_tudo_ou_nada_witness :
    solicitar_sala salaOcupada false 0 none [] (str "09:00") (str "11:00") (str "EVENTO") =
      some (salaOcupada, Resultado.rejeitado [(0, str "08:00", str "10:00", str "AULA")]) :=
  (c3_tudo_ou_nada salaOcupada false 0 none [] (str "09:00") (str "11:00") (str "EVENTO")
      [0] [(0, str "08:00", str "10:00", str "AULA")] rfl (by decide)).1 (by decide)

/-- C1 (amended): the interactive path checks conflicts before recording,
so the interval of an accepted interactive request overlaps no booking
that was already stored for the weekday of any checked date.  The claim's
full invariant fails: bulk ingestion (`processar_alocacoes`) inserts
without any conflict check, so overlapping bookings can coexist in a
room's store (see the counterexample). -/
theorem c1_aceito_sem_conflito :
    ∀ sala usaFim dataIni dataFim diasEvento (ini fim evento : Str) sala' n,
      solicitar_sala sala usaFim dataIni dataFim diasEvento ini fim evento =
        some (sala', Resultado.aceito n) →
      ∀ d ∈ datas_a_verificar usaFim dataIni dataFim diasEvento,
        ∀ a b ds, (a, b, ds) ∈ sala.horariosSemana (weekdayOf d) →
          intervals_overlap a b ini fim ≠ some true := by
  intro sala usaFim dataIni dataFim diasEvento ini fim evento sala' n h d hd a b ds hm ho
  obtain ⟨hcs, -, -⟩ := solicitar_sala_aceito_inv h
  have hmem := (findConflitos_mem hcs d a b ds).mpr ⟨hd, hm, ho⟩
  simp at hmem

theorem c1_aceito_sem_conflito_witness :
    intervals_overlap (str "08:00") (str "10:00") (str "10:00") (str "11:00") ≠ some true :=
  c1_aceito_sem_conflito salaOcupada false 0 none [] (str "10:00") (str "11:00") (str "EV")
    (gravarDatas salaOcupada [0] (str "10:00") (str "11:00") (descOf (str "EV"))) 1 rfl
    0 (by decide) (str "08:00") (str "10:00") (str "AULA") (by decide)

/-- C1 counterexample: bulk ingestion admits two `ALOCADA` rows for room
101 on Monday with intervals 08:00-10:00 and 09:00-11:00; both are stored,
so the resulting store violates the no-overlap invariant. -/
theorem c1_counterexample :
    ¬ semSobreposicao (salasCex.headD (criar_sala [] 0)) := by
  intro h
  have h2 := h Weekday.segunda
  revert h2
  decide

/-- C6 (amended): a window with `lastDate < firstDate` expands to the
empty sequence of dates (`pd.date_range` is empty on an inverted range),
not to the one-element sequence `[firstDate]` claimed by the spec (see the
counterexample); this also makes the interactive multi-day date list
empty. -/
theorem c6_intervalo_invertido_vazio :
    ∀ s e, e < s →
      date_range s e = [] ∧
        ∀ dias : List Weekday, dias ≠ [] → datas_a_verificar true s (some e) dias = [] := by
  intro s e h
  have hdr : date_range s e = [] := by
    unfold date_range
    have h0 : e + 1 - s = 0 := by omega
    rw [h0]
    rfl
  exact ⟨hdr, fun dias hd => by simp [datas_a_verificar, hd, hdr]⟩

theorem c6_intervalo_invertido_vazio_witness :
    date_range 5 3 = [] ∧ datas_a_verificar true 5 (some 3) weekdays = [] :=
  ⟨(c6_intervalo_invertido_vazio 5 3 (by decide)).1,
   (c6_intervalo_invertido_vazio 5 3 (by decide)).2 weekdays (by decide)⟩

/-- C6 counterexample: for the inverted window (5, 3) the expansion is
empty, not the claimed one-element sequence `[5]`. -/
theorem c6_counterexample : date_range 5 3 = [] ∧ date_range 5 3 ≠ [5] := by decide

/-- C7 (amended): an accepted request appends the new booking at the end
of each checked weekday's list (one copy per date falling on it), so a
query returns bookings in insertion order, which need not be ascending
start-time order (see the counterexample). -/
theorem c7_insercao_no_fim :
    ∀ sala usaFim dataIni dataFim diasEvento (ini fim evento : Str) sala' n w,
      solicitar_sala sala usaFim dataIni dataFim diasEvento ini fim evento =
        some (sala', Resultado.aceito n) →
      sala'.horariosSemana w =
        sala.horariosSemana w ++
          (((datas_a_verificar usaFim dataIni dataFim diasEvento).filter fun d =>
              decide (weekdayOf d = w)).map fun _ => ((ini, fim, descOf evento) : Booking)) := by
  intro sala usaFim dataIni dataFim diasEvento ini fim evento sala' n w h
  obtain ⟨-, rfl, -⟩ := solicitar_sala_aceito_inv h
  exact gravar_semana sala _ ini fim (descOf evento) w

theorem c7_insercao_no_fim_witness :
    (gravarDatas salaOcupada [0] (str "10:00") (str "11:00") (descOf (str "EV"))).horariosSemana
        Weekday.segunda =
      salaOcupada.horariosSemana Weekday.segunda ++
        ((([0] : List Nat).filter fun d => decide (weekdayOf d = Weekday.segunda)).map
          fun _ => ((str "10:00", str "11:00", descOf (str "EV")) : Booking)) :=
  c7_insercao_no_fim salaOcupada false 0 none [] (str "10:00") (str "11:00") (str "EV")
    (gravarDatas salaOcupada [0] (str "10:00") (str "11:00") (descOf (str "EV"))) 1
    Weekday.segunda rfl

/-- C7 counterexample: accepting 10:00-11:00 and then 08:00-09:00 on the
same Monday leaves the weekday list in insertion order
[(10:00, 11:00), (08:00, 09:00)], not ascending by start time. -/
theorem c7_counterexample : ¬ ordenadoPorInicio salaDesordenada := by
  intro h
  have h2 := h Weekday.segunda
  have hlist : salaDesordenada.horariosSemana Weekday.segunda =
      [(str "10:00", str "11:00", str "EV1"), (str "08:00", str "09:00", str "EV2")] := by
    decide
  rw [hlist] at h2
  have h3 := (List.chain'_cons.mp h2).1
  revert h3
  decide

/-- C9: occupancy is keyed by weekday, not calendar date: after a one-off
reservation on date `d1` is accepted, any request on a date `d2` of the
same weekday (possibly a different date) whose interval overlaps it finds
a nonempty conflict list naming that reservation. -/
theorem c9_conflito_por_dia_da_semana :
    ∀ sala (d1 d2 : Nat) (ini fim evento ini2 fim2 : Str) sala' n,
      weekdayOf d2 = weekdayOf d1 →
      intervals_overlap ini fim ini2 fim2 = some true →
      (∀ b ∈ sala.horariosSemana (weekdayOf d1), parsesB b) →
      solicitar_sala sala false d1 none [] ini fim evento = some (sala', Resultado.aceito n) →
      ∃ L, findConflitos sala' [d2] ini2 fim2 = some L ∧
        (d2, ini, fim, descOf evento) ∈ L ∧ L ≠ [] := by
  intro sala d1 d2 ini fim evento ini2 fim2 sala' n hw ho hp hacc
  obtain ⟨hcs, rfl, -⟩ := solicitar_sala_aceito_inv hacc
  obtain ⟨hi1, hf1, hi2, hf2⟩ := intervals_overlap_parses ho
  have hstore :
      (gravarDatas sala (datas_a_verificar false d1 none []) ini fim
            (descOf evento)).horariosSemana (weekdayOf d2) =
        sala.horariosSemana (weekdayOf d1) ++ [(ini, fim, descOf evento)] := by
    rw [gravar_semana, hw]
    simp [datas_a_verificar]
  have hb :
      ∀ d ∈ [d2],
        ∀ b ∈ (gravarDatas sala (datas_a_verificar false d1 none []) ini fim
            (descOf evento)).horariosSemana (weekdayOf d), parsesB b := by
    intro d hd b hbm
    rcases List.mem_cons.mp hd with rfl | hd'
    · rw [hstore] at hbm
      rcases List.mem_append.mp hbm with hm | hm
      · exact hp b hm
      · rcases List.mem_cons.mp hm with rfl | hm'
        · exact ⟨hi1, hf1⟩
        · simp at hm'
    · simp at hd'
  have hsome := findConflitos_isSome hi2 hf2 hb
  obtain ⟨L, hL⟩ := Option.isSome_iff_exists.mp hsome
  refine ⟨L, hL, ?_, ?_⟩
  · refine (findConflitos_mem hL d2 ini fim (descOf evento)).mpr
      ⟨List.mem_cons_self _ _, ?_, ho⟩
    rw [hstore]
    exact List.mem_append.mpr (Or.inr (List.mem_cons_self _ _))
  · intro hnil
    subst hnil
    have := (findConflitos_mem hL d2 ini fim (descOf evento)).mpr
      ⟨List.mem_cons_self _ _, by
        rw [hstore]; exact List.mem_append.mpr (Or.inr (List.mem_cons_self _ _)), ho⟩
    simp at this

theorem c9_conflito_por_dia_da_semana_witness :
    ∃ L,
      findConflitos
          (gravarDatas (criar_sala (str "101") 40) [0] (str "09:00") (str "11:00")
            (descOf (str "EV"))) [7] (str "10:00") (str "12:00") = some L ∧
        ((7 : Nat), str "09:00", str "11:00", descOf (str "EV")) ∈ L ∧ L ≠ [] :=
  c9_conflito_por_dia_da_semana (criar_sala (str "101") 40) 0 7 (str "09:00") (str "11:00")
    (str "EV") (str "10:00") (str "12:00")
    (gravarDatas (criar_sala (str "101") 40) [0] (str "09:00") (str "11:00")
      (descOf (str "EV"))) 1
    (by decide) (by decide) (by intro b hb; simp [criar_sala] at hb) rfl

/-- C10: a candidate interval whose start is not strictly before its end
overlaps no stored booking under the overlap predicate, so such a request
finds zero conflicts and is always accepted and recorded into the room's
occupancy for every checked date. -/
theorem c10_intervalo_vazio_aceito :
    ∀ sala usaFim dataIni dataFim diasEvento (ini fim evento : Str) (ti tf : PyTime),
      str_to_time ini = some ti → str_to_time fim = some tf →
      time_to_minutes tf ≤ time_to_minutes ti →
      (∀ d ∈ datas_a_verificar usaFim dataIni dataFim diasEvento,
        ∀ b ∈ sala.horariosSemana (weekdayOf d), parsesB b) →
      findConflitos sala (datas_a_verificar usaFim dataIni dataFim diasEvento) ini fim =
          some [] ∧
        solicitar_sala sala usaFim dataIni dataFim diasEvento ini fim evento =
          some
            (gravarDatas sala (datas_a_verificar usaFim dataIni dataFim diasEvento) ini fim
              (descOf evento),
             Resultado.aceito (datas_a_verificar usaFim dataIni dataFim diasEvento).length) ∧
        ∀ d ∈ datas_a_verificar usaFim dataIni dataFim diasEvento,
          (ini, fim, descOf evento) ∈
            (gravarDatas sala (datas_a_verificar usaFim dataIni dataFim diasEvento) ini fim
              (descOf evento)).horariosSemana (weekdayOf d) := by
  intro sala usaFim dataIni dataFim diasEvento ini fim evento ti tf hti htf hge hb
  have hsome := findConflitos_isSome (by rw [hti]; rfl) (by rw [htf]; rfl) hb
  obtain ⟨L, hL⟩ := Option.isSome_iff_exists.mp hsome
  have hLnil : L = [] := by
    cases L with
    | nil => rfl
    | cons x xs =>
      obtain ⟨d', a, b, ds⟩ := x
      obtain ⟨hd, hm, ho⟩ := (findConflitos_mem hL d' a b ds).mp (List.mem_cons_self _ _)
      obtain ⟨ha, hbp⟩ := hb d' hd _ hm
      obtain ⟨ta, hta⟩ := Option.isSome_iff_exists.mp ha
      obtain ⟨tb, htb⟩ := Option.isSome_iff_exists.mp hbp
      rw [intervals_overlap_eq hta htb hti htf] at ho
      have hlt := of_decide_eq_true (Option.some_inj.mp ho)
      have h1 : min (time_to_minutes tb) (time_to_minutes tf) ≤ time_to_minutes tf :=
        Nat.min_le_right _ _
      have h2 : time_to_minutes ti ≤ max (time_to_minutes ta) (time_to_minutes ti) :=
        Nat.le_max_right _ _
      omega
  subst hLnil
  refine ⟨hL, solicitar_sala_aceita hL, fun d hd => ?_⟩
  rw [gravar_semana]
  refine List.mem_append.mpr (Or.inr ?_)
  exact List.mem_map.mpr ⟨d, List.mem_filter.mpr ⟨hd, by simp⟩, rfl⟩

theorem c10_intervalo_vazio_aceito_witness :
    findConflitos salaOcupada (datas_a_verificar false 0 none []) (str "09:00") (str "09:00") =
        some [] ∧
      solicitar_sala salaOcupada false 0 none [] (str "09:00") (str "09:00") (str "NADA") =
        some
          (gravarDatas salaOcupada (datas_a_verificar false 0 none []) (str "09:00")
            (str "09:00") (descOf (str "NADA")),
           Resultado.aceito (datas_a_verificar false 0 none []).length) ∧
      ∀ d ∈ datas_a_verificar false 0 none [],
        (str "09:00", str "09:00", descOf (str "NADA")) ∈
          (gravarDatas salaOcupada (datas_a_verificar false 0 none []) (str "09:00")
            (str "09:00") (descOf (str "NADA"))).horariosSemana (weekdayOf d) :=
  c10_intervalo_vazio_aceito salaOcupada false 0 none [] (str "09:00") (str "09:00")
    (str "NADA") ⟨9, 0, 0⟩ ⟨9, 0, 0⟩ (by decide) (by decide) (by decide) (by decide)

/-! ### Helper lemmas about the grid fill loop -/

theorem list_index_slotList :
    ∀ (n a i c : Nat), list_index (slotList a n) (c, c + 30) = some i ↔ i < n ∧ c = a + 30 * i := by
  intro n
  induction n with
  | zero => intro a i c; simp [slotList, list_index]
  | succ m ih =>
    intro a i c
    rw [slotList, list_index]
    by_cases hc : ((a, a + 30) : Nat × Nat) = (c, c + 30)
    · rw [if_pos hc]
      simp only [Prod.mk.injEq] at hc
      constructor
      · intro hsome
        obtain rfl : (0 : Nat) = i := Option.some_inj.mp hsome
        exact ⟨Nat.succ_pos m, by omega⟩
      · rintro ⟨hi, hci⟩
        obtain rfl : i = 0 := by omega
        rfl
    · rw [if_neg hc]
      simp only [Option.map_eq_some']
      constructor
      · rintro ⟨j, hj, rfl⟩
        obtain ⟨hjm, hc2⟩ := (ih (a + 30) j c).mp hj
        exact ⟨by omega, by omega⟩
      · rintro ⟨hi, hci⟩
        have hi0 : i ≠ 0 := by
          intro h0
          subst h0
          exact hc (by simp; omega)
        obtain ⟨j, rfl⟩ := Nat.exists_eq_succ_of_ne_zero hi0
        exact ⟨j, (ih (a + 30) j c).mpr ⟨by omega, by omega⟩, rfl⟩

theorem list_index_horas {c i : Nat} :
    list_index horas_minutos (c, c + 30) = some i ↔ i < 30 ∧ c = 420 + 30 * i := by
  rw [show horas_minutos = slotList 420 30 from by decide]
  exact list_index_slotList 30 420 i c

theorem fillRows_mem_aux (fuel : Nat) :
    ∀ s e i, e - s ≤ fuel →
      (i ∈ fillRows s e ↔ ∃ k, s + 30 * k < e ∧ s + 30 * k = 420 + 30 * i ∧ i < 30) := by
  induction fuel with
  | zero =>
    intro s e i hf
    rw [fillRows.eq_def, dif_neg (by omega)]
    constructor
    · intro hmem; simp at hmem
    · rintro ⟨k, h1, h2, h3⟩; omega
  | succ m ih =>
    intro s e i hf
    by_cases hse : s < e
    · rw [fillRows.eq_def, dif_pos hse]
      cases hidx : list_index horas_minutos (s, s + 30) with
      | some j =>
        obtain ⟨hj30, hsj⟩ := list_index_horas.mp hidx
        have ihm := ih (s + 30) e i (by omega)
        simp only [List.mem_cons, ihm]
        constructor
        · rintro (rfl | ⟨k, h1, h2, h3⟩)
          · exact ⟨0, by omega, by omega, hj30⟩
          · exact ⟨k + 1, by omega, by omega, h3⟩
        · rintro ⟨k, h1, h2, h3⟩
          cases k with
          | zero => left; omega
          | succ k' => right; exact ⟨k', by omega, by omega, h3⟩
      | none =>
        have ihm := ih (s + 30) e i (by omega)
        rw [ihm]
        constructor
        · rintro ⟨k, h1, h2, h3⟩
          exact ⟨k + 1, by omega, by omega, h3⟩
        · rintro ⟨k, h1, h2, h3⟩
          cases k with
          | zero =>
            exfalso
            have hcontra : list_index horas_minutos (s, s + 30) = some i :=
              list_index_horas.mpr ⟨h3, by omega⟩
            rw [hidx] at hcontra
            exact Option.noConfusion hcontra
          | succ k' => exact ⟨k', by omega, by omega, h3⟩
    · rw [fillRows.eq_def, dif_neg hse]
      constructor
      · intro hmem; simp at hmem
      · rintro ⟨k, h1, h2, h3⟩; omega

theorem fillRows_mem (s e i : Nat) :
    i ∈ fillRows s e ↔ ∃ k, s + 30 * k < e ∧ s + 30 * k = 420 + 30 * i ∧ i < 30 :=
  fillRows_mem_aux (e - s) s e i (Nat.le_refl _)

theorem fillRows_misaligned_aux (fuel : Nat) :
    ∀ s e, e - s ≤ fuel → s % 30 ≠ 0 → fillRows s e = [] := by
  induction fuel with
  | zero =>
    intro s e hf hal
    rw [fillRows.eq_def, dif_neg (by omega)]
  | succ m ih =>
    intro s e hf hal
    by_cases hse : s < e
    · rw [fillRows.eq_def, dif_pos hse]
      cases hidx : list_index horas_minutos (s, s + 30) with
      | some j =>
        obtain ⟨-, hsj⟩ := list_index_horas.mp hidx
        exact absurd (by omega : s % 30 = 0) hal
      | none =>
        exact ih (s + 30) e (by omega) (by omega)
    · rw [fillRows.eq_def, dif_neg hse]

theorem fillRows_misaligned (s e : Nat) (hal : s % 30 ≠ 0) : fillRows s e = [] :=
  fillRows_misaligned_aux (e - s) s e (Nat.le_refl _) hal

/-! ### Claim theorem C5 -/

/-- C5 (amended): when a booking's start is aligned to a 30-minute
boundary, the fill loop marks exactly the grid slots whose half-open range
intersects the booking's interval; but a booking whose start is not
30-minute aligned marks no slot at all (its generated chunk labels match
no grid label), so the original claim fails for non-aligned bookings (see
the counterexample). -/
theorem c5_preenchimento_alinhado :
    ∀ s e,
      (s % 30 = 0 → ∀ i, i < 30 → (i ∈ fillRows s e ↔ slot_intersects i s e = true)) ∧
      (s % 30 ≠ 0 → fillRows s e = []) := by
  intro s e
  refine ⟨fun hal i hi => ?_, fun hal => fillRows_misaligned s e hal⟩
  obtain ⟨m, rfl⟩ : ∃ m, s = 30 * m := ⟨s / 30, by omega⟩
  rw [fillRows_mem]
  unfold slot_intersects
  rw [decide_eq_true_eq]
  constructor
  · rintro ⟨k, h1, h2, h3⟩
    omega
  · intro hlt
    refine ⟨14 + i - m, ?_, ?_, hi⟩ <;> omega

theorem c5_preenchimento_alinhado_witness :
    1 ∈ fillRows 420 495 ↔ slot_intersects 1 420 495 = true :=
  (c5_preenchimento_alinhado 420 495).1 rfl 1 (by decide)

/-- C5 counterexample: the booking 07:15-08:15 (minutes 435-495)
intersects slot 0 (07:00-07:30) but the fill loop marks no slot at all,
since its chunk labels 07:15-07:45 and 07:45-08:15 are not grid labels. -/
theorem c5_counterexample :
    ¬ (slot_intersects 0 435 495 = true → 0 ∈ fillRows 435 495) := by
  intro himp
  have hmem := himp (by decide)
  rw [fillRows_misaligned 435 495 (by decide)] at hmem
  simp at hmem

/-! ### Helper lemmas about the merge pass -/

theorem covered_eq_true {rs : List (Nat × Nat)} {j : Nat} :
    covered rs j = true ↔ ∃ r ∈ rs, r.1 < j ∧ j ≤ r.2 := by
  simp [covered, List.any_eq_true]

theorem covered_append (l1 l2 : List (Nat × Nat)) (j : Nat) :
    covered (l1 ++ l2) j = (covered l1 j || covered l2 j) := by
  simp [covered, List.any_append]

theorem clearFrom_length (r : Nat × Nat) :
    ∀ (j : Nat) (l : List (Option Str)), (clearFrom r j l).length = l.length := by
  intro j l
  induction l generalizing j with
  | nil => rfl
  | cons v rest ih => rw [clearFrom]; simp [ih]

theorem clearFrom_getElem? (r : Nat × Nat) :
    ∀ (l : List (Option Str)) (j0 k : Nat),
      (clearFrom r j0 l)[k]? =
        (l[k]?).map fun v => if r.1 < j0 + k ∧ j0 + k ≤ r.2 then none else v := by
  intro l
  induction l with
  | nil => intro j0 k; simp [clearFrom]
  | cons v rest ih =>
    intro j0 k
    rw [clearFrom]
    cases k with
    | zero => simp
    | succ k' =>
      simp only [List.getElem?_cons_succ]
      rw [ih (j0 + 1) k']
      have harith : j0 + 1 + k' = j0 + (k' + 1) := by omega
      rw [harith]

theorem foldl_clearRange_getElem? :
    ∀ (rs : List (Nat × Nat)) (l : List (Option Str)) (k : Nat),
      (List.foldl clearRange l rs)[k]? =
        (l[k]?).map fun v => if covered rs k = true then none else v := by
  intro rs
  induction rs with
  | nil =>
    intro l k
    simp only [List.foldl_nil, covered, List.any_nil]
    cases l[k]? <;> simp
  | cons r rest ih =>
    intro l k
    simp only [List.foldl_cons]
    rw [ih (clearRange l r) k]
    unfold clearRange
    rw [clearFrom_getElem? r l 0 k]
    rw [Option.map_map]
    cases hv : l[k]? with
    | none => simp
    | some v =>
      simp only [Option.map_some', Function.comp]
      have hcov : covered (r :: rest) k = ((decide (r.1 < k) && decide (k ≤ r.2)) || covered rest k) := by
        simp [covered, List.any_cons]
      rw [hcov]
      by_cases h1 : r.1 < 0 + k ∧ 0 + k ≤ r.2
      · rw [if_pos h1]
        have : (decide (r.1 < k) && decide (k ≤ r.2)) = true := by
          simp only [Bool.and_eq_true, decide_eq_true_eq]; omega
        rw [this]
        simp
      · rw [if_neg h1]
        have : (decide (r.1 < k) && decide (k ≤ r.2)) = false := by
          simp only [Bool.and_eq_false_iff, decide_eq_false_iff_not]
          omega
        rw [this]
        simp

theorem foldl_clearRange_length :
    ∀ (rs : List (Nat × Nat)) (l : List (Option Str)),
      (List.foldl clearRange l rs).length = l.length := by
  intro rs
  induction rs with
  | nil => intro l; rfl
  | cons r rest ih =>
    intro l
    simp only [List.foldl_cons]
    rw [ih]
    exact clearFrom_length r 0 l

theorem mergePassVals_getElem? (l : List (Option Str)) (k : Nat) :
    (mergePassVals l)[k]? =
      (l[k]?).map fun v => if covered (mergeRanges l) k = true then none else v :=
  foldl_clearRange_getElem? (mergeRanges l) l k

theorem scanRuns_covers_pending (rest : List (Option Str)) :
    ∀ (start i j : Nat) (cur : Option Str),
      isFilled cur = true → start < j → j + 1 ≤ i →
      covered (scanRuns start cur i rest) j = true := by
  induction rest with
  | nil =>
    intro start i j cur hf h1 h2
    rw [scanRuns, if_pos ⟨hf, by omega⟩]
    rw [covered_eq_true]
    exact ⟨(start, i - 1), List.mem_cons_self _ _, by omega⟩
  | cons v rest ih =>
    intro start i j cur hf h1 h2
    rw [scanRuns]
    by_cases hv : v ≠ cur
    · rw [if_pos hv, covered_append]
      have hleft : covered (if isFilled cur ∧ start ≤ i - 1 then [(start, i - 1)] else []) j = true := by
        rw [if_pos ⟨hf, by omega⟩, covered_eq_true]
        exact ⟨(start, i - 1), List.mem_cons_self _ _, by omega⟩
      rw [hleft]
      simp
    · rw [if_neg hv]
      exact ih start (i + 1) j cur hf h1 (by omega)

theorem scanRuns_covers_dup (suffix : List (Option Str)) :
    ∀ (start i k : Nat) (cur a : Option Str),
      start ≤ i →
      suffix[k]? = some a → suffix[k + 1]? = some a → isFilled a = true →
      covered (scanRuns start cur i suffix) (i + k + 1) = true := by
  induction suffix with
  | nil => intro start i k cur a _ hk _ _; simp at hk
  | cons v rest ih =>
    intro start i k cur a hsi hk hk1 hf
    rw [scanRuns]
    cases k with
    | zero =>
      have hva : v = a := by simpa using hk
      rw [← hva] at hk1 hf
      have hr0 : rest[0]? = some v := by simpa using hk1
      cases rest with
      | nil => simp at hr0
      | cons w rest' =>
        have hwv : w = v := by simpa using hr0
        rw [hwv]
        by_cases hvc : v ≠ cur
        · rw [if_pos hvc, covered_append]
          have hright : covered (scanRuns i v (i + 1) (v :: rest')) (i + 0 + 1) = true := by
            rw [scanRuns, if_neg (fun hh => hh rfl)]
            exact scanRuns_covers_pending rest' i (i + 2) (i + 1) v hf (by omega) (by omega)
          rw [hright]
          simp
        · rw [if_neg hvc]
          have hvc2 : v = cur := not_ne_iff.mp hvc
          rw [← hvc2]
          rw [scanRuns, if_neg (fun hh => hh rfl)]
          exact scanRuns_covers_pending rest' start (i + 2) (i + 1) v hf (by omega) (by omega)
    | succ k' =>
      have hk'2 : rest[k']? = some a := by simpa using hk
      have hk1'2 : rest[k' + 1]? = some a := by simpa using hk1
      have harith : i + (k' + 1) + 1 = (i + 1) + k' + 1 := by omega
      rw [harith]
      by_cases hv : v ≠ cur
      · rw [if_pos hv, covered_append]
        have hright := ih i (i + 1) k' v a (by omega) hk'2 hk1'2 hf
        rw [hright]
        simp
      · rw [if_neg hv]
        exact ih start (i + 1) k' cur a (by omega) hk'2 hk1'2 hf

theorem scanRuns_degenerate (suffix : List (Option Str)) :
    ∀ (start i : Nat) (cur : Option Str),
      List.Chain' P8 (cur :: suffix) →
      (isFilled cur = true → i ≤ start + 1) →
      ∀ r ∈ scanRuns start cur i suffix, r.2 ≤ r.1 := by
  induction suffix with
  | nil =>
    intro start i cur _ hst r hr
    rw [scanRuns] at hr
    by_cases hcond : isFilled cur = true ∧ start ≤ i - 1
    · rw [if_pos hcond] at hr
      obtain rfl : r = (start, i - 1) := by simpa using hr
      have := hst hcond.1
      simp only
      omega
    · rw [if_neg hcond] at hr
      simp at hr
  | cons v rest ih =>
    intro start i cur hch hst r hr
    rw [scanRuns] at hr
    have hch2 := List.chain'_cons.mp hch
    by_cases hv : v ≠ cur
    · rw [if_pos hv] at hr
      rcases List.mem_append.mp hr with hm | hm
      · by_cases hcond : isFilled cur = true ∧ start ≤ i - 1
        · rw [if_pos hcond] at hm
          obtain rfl : r = (start, i - 1) := by simpa using hm
          have := hst hcond.1
          simp only
          omega
        · rw [if_neg hcond] at hm
          simp at hm
      · exact ih i (i + 1) v hch2.2 (fun _ => by omega) r hm
    · rw [if_neg hv] at hr
      have hva : v = cur := not_ne_iff.mp hv
      subst hva
      have hnf : isFilled v = false := by
        have hp := hch2.1
        unfold P8 at hp
        cases hfc : isFilled v with
        | false => rfl
        | true => exact absurd ⟨rfl, hfc⟩ hp
      exact ih start (i + 1) v hch2.2 (fun hf => by rw [hnf] at hf; cases hf) r hr

theorem clearFrom_degenerate {r : Nat × Nat} (hr : r.2 ≤ r.1) :
    ∀ (j : Nat) (l : List (Option Str)), clearFrom r j l = l := by
  intro j l
  induction l generalizing j with
  | nil => rfl
  | cons v rest ih =>
    rw [clearFrom, if_neg (by omega), ih]

theorem foldl_clearRange_degenerate :
    ∀ (rs : List (Nat × Nat)) (l : List (Option Str)),
      (∀ r ∈ rs, r.2 ≤ r.1) → List.foldl clearRange l rs = l := by
  intro rs
  induction rs with
  | nil => intro l _; rfl
  | cons r rest ih =>
    intro l hall
    simp only [List.foldl_cons]
    rw [show clearRange l r = l from clearFrom_degenerate (hall r (List.mem_cons_self _ _)) 0 l]
    exact ih l fun x hx => hall x (List.mem_cons_of_mem _ hx)

theorem mergePassVals_no_dup (l : List (Option Str)) (k : Nat) {a b : Option Str}
    (hk : (mergePassVals l)[k]? = some a) (hk1 : (mergePassVals l)[k + 1]? = some b)
    (hab : b = a) : isFilled b = false := by
  cases hfb : isFilled b with
  | false => rfl
  | true =>
    exfalso
    have hfa : isFilled a = true := by rw [← hab]; exact hfb
    have h1 := mergePassVals_getElem? l k
    have h2 := mergePassVals_getElem? l (k + 1)
    rw [hk] at h1
    rw [hk1] at h2
    cases hv1 : l[k + 1]? with
    | none => rw [hv1] at h2; simp at h2
    | some v1 =>
      rw [hv1] at h2
      simp only [Option.map_some', Option.some_inj] at h2
      by_cases hcov1 : covered (mergeRanges l) (k + 1) = true
      · rw [if_pos hcov1] at h2
        subst h2
        simp [isFilled] at hfb
      · rw [if_neg hcov1] at h2
        subst h2
        cases hv0 : l[k]? with
        | none => rw [hv0] at h1; simp at h1
        | some v0 =>
          rw [hv0] at h1
          simp only [Option.map_some', Option.some_inj] at h1
          by_cases hcov0 : covered (mergeRanges l) k = true
          · rw [if_pos hcov0] at h1
            subst h1
            rw [hab] at hfb
            simp [isFilled] at hfb
          · rw [if_neg hcov0] at h1
            subst h1
            subst hab
            have hdup := scanRuns_covers_dup l 0 0 k (l.headD none) b (Nat.le_refl 0)
              hv0 hv1 hfb
            rw [show (0 : Nat) + k + 1 = k + 1 from by omega] at hdup
            exact hcov1 hdup

theorem mergePassVals_chain (l : List (Option Str)) :
    List.Chain' P8 (mergePassVals l) := by
  rw [List.chain'_iff_get]
  intro i hi
  unfold P8
  rintro ⟨heq, hfil⟩
  have hlen : i + 1 < (mergePassVals l).length := by omega
  have h0 : (mergePassVals l)[i]? = some ((mergePassVals l).get ⟨i, by omega⟩) := by
    rw [List.getElem?_eq_getElem (by omega)]
    simp
  have h1 : (mergePassVals l)[i + 1]? = some ((mergePassVals l).get ⟨i + 1, hlen⟩) := by
    rw [List.getElem?_eq_getElem hlen]
    simp
  have := mergePassVals_no_dup l i h0 h1 heq
  rw [hfil] at this
  cases this

theorem mergeRanges_cons (c : Option Str) (t : List (Option Str)) :
    mergeRanges (c :: t) = scanRuns 0 c 1 t := by
  unfold mergeRanges
  simp only [List.headD_cons]
  rw [scanRuns, if_neg (fun hh => hh rfl)]

theorem mergeRanges_degenerate {m : List (Option Str)} (hch : List.Chain' P8 m) :
    ∀ r ∈ mergeRanges m, r.2 ≤ r.1 := by
  cases m with
  | nil =>
    intro r hr
    rw [show mergeRanges [] = [] from rfl] at hr
    simp at hr
  | cons c t =>
    rw [mergeRanges_cons]
    exact scanRuns_degenerate t 0 1 c hch (fun _ => by omega)

theorem mergePassVals_idem_of_chain {m : List (Option Str)} (hch : List.Chain' P8 m) :
    mergePassVals m = m := by
  unfold mergePassVals
  exact foldl_clearRange_degenerate (mergeRanges m) m (mergeRanges_degenerate hch)

theorem containsRange_eq_true {rs : List (Nat × Nat)} {r : Nat × Nat} :
    containsRange rs r = true ↔ ∃ r0 ∈ rs, r0.1 ≤ r.1 ∧ r.2 ≤ r0.2 := by
  simp [containsRange, List.any_eq_true]

theorem containsRange_addRange {rs : List (Nat × Nat)} {r e : Nat × Nat}
    (h : containsRange rs e = true) : containsRange (addRange rs r) e = true := by
  unfold addRange
  by_cases hc : containsRange rs r = true
  · rw [if_pos hc]
    exact h
  · rw [if_neg hc]
    rw [containsRange_eq_true] at h ⊢
    obtain ⟨r0, hm, h1, h2⟩ := h
    exact ⟨r0, List.mem_append.mpr (Or.inl hm), h1, h2⟩

theorem containsRange_foldl (es : List (Nat × Nat)) :
    ∀ {rs : List (Nat × Nat)} {e : Nat × Nat}, containsRange rs e = true →
      containsRange (List.foldl addRange rs es) e = true := by
  induction es with
  | nil => intro rs e h; exact h
  | cons r rest ih =>
    intro rs e h
    simp only [List.foldl_cons]
    exact ih (containsRange_addRange h)

theorem containsRange_addRange_self (rs : List (Nat × Nat)) (r : Nat × Nat) :
    containsRange (addRange rs r) r = true := by
  unfold addRange
  by_cases hc : containsRange rs r = true
  · rw [if_pos hc]
    exact hc
  · rw [if_neg hc, containsRange_eq_true]
    exact ⟨r, List.mem_append.mpr (Or.inr (List.mem_cons_self _ _)),
      Nat.le_refl _, Nat.le_refl _⟩

theorem foldl_addRange_contains (es : List (Nat × Nat)) :
    ∀ (rs : List (Nat × Nat)) (e : Nat × Nat), e ∈ es →
      containsRange (List.foldl addRange rs es) e = true := by
  induction es with
  | nil => intro rs e h; simp at h
  | cons r rest ih =>
    intro rs e h
    simp only [List.foldl_cons]
    rcases List.mem_cons.mp h with rfl | hm
    · exact containsRange_foldl rest (containsRange_addRange_self rs e)
    · exact ih (addRange rs r) e hm

theorem foldl_addRange_id (es : List (Nat × Nat)) :
    ∀ rs : List (Nat × Nat), (∀ e ∈ es, containsRange rs e = true) →
      List.foldl addRange rs es = rs := by
  induction es with
  | nil => intro rs _; rfl
  | cons r rest ih =>
    intro rs hall
    simp only [List.foldl_cons]
    rw [show addRange rs r = rs from by
      unfold addRange; rw [if_pos (hall r (List.mem_cons_self _ _))]]
    exact ih rs fun e he => hall e (List.mem_cons_of_mem _ he)

theorem scanRuns_pending_emitted (rest : List (Option Str)) :
    ∀ (start i : Nat) (cur : Option Str),
      isFilled cur = true → start ≤ i - 1 →
      ∃ E ∈ scanRuns start cur i rest, E.1 = start ∧ i - 1 ≤ E.2 := by
  induction rest with
  | nil =>
    intro start i cur hf hle
    rw [scanRuns, if_pos ⟨hf, hle⟩]
    exact ⟨(start, i - 1), List.mem_cons_self _ _, rfl, Nat.le_refl _⟩
  | cons v rest ih =>
    intro start i cur hf hle
    rw [scanRuns]
    by_cases hvc : v ≠ cur
    · rw [if_pos hvc]
      refine ⟨(start, i - 1), List.mem_append.mpr (Or.inl ?_), rfl, Nat.le_refl _⟩
      rw [if_pos ⟨hf, hle⟩]
      exact List.mem_cons_self _ _
    · rw [if_neg hvc]
      obtain ⟨E, hEm, hE1, hE2⟩ := ih start (i + 1) cur hf (by omega)
      exact ⟨E, hEm, hE1, by omega⟩

theorem scanRuns_filled_mem (suffix : List (Option Str)) :
    ∀ (start i k : Nat) (cur a : Option Str),
      start ≤ i →
      suffix[k]? = some a → isFilled a = true →
      ∃ E ∈ scanRuns start cur i suffix, E.1 ≤ i + k ∧ i + k ≤ E.2 := by
  induction suffix with
  | nil => intro start i k cur a _ hk _; simp at hk
  | cons v rest ih =>
    intro start i k cur a hsi hk hf
    rw [scanRuns]
    cases k with
    | zero =>
      have hva : v = a := by simpa using hk
      rw [← hva] at hf
      by_cases hvc : v ≠ cur
      · rw [if_pos hvc]
        obtain ⟨E, hEm, hE1, hE2⟩ := scanRuns_pending_emitted rest i (i + 1) v hf (by omega)
        exact ⟨E, List.mem_append.mpr (Or.inr hEm), by omega, by omega⟩
      · rw [if_neg hvc]
        have hvcur : v = cur := not_ne_iff.mp hvc
        obtain ⟨E, hEm, hE1, hE2⟩ :=
          scanRuns_pending_emitted rest start (i + 1) cur (by rw [← hvcur]; exact hf) (by omega)
        exact ⟨E, hEm, by omega, by omega⟩
    | succ k' =>
      have hk'2 : rest[k']? = some a := by simpa using hk
      by_cases hvc : v ≠ cur
      · rw [if_pos hvc]
        obtain ⟨E, hEm, hE1, hE2⟩ := ih i (i + 1) k' v a (by omega) hk'2 hf
        exact ⟨E, List.mem_append.mpr (Or.inr hEm), by omega, by omega⟩
      · rw [if_neg hvc]
        obtain ⟨E, hEm, hE1, hE2⟩ := ih start (i + 1) k' cur a (by omega) hk'2 hf
        exact ⟨E, hEm, by omega, by omega⟩

theorem mergeRanges_filled_mem {vals : List (Option Str)} {p : Nat} {a : Option Str}
    (hp : vals[p]? = some a) (hf : isFilled a = true) :
    ∃ E ∈ mergeRanges vals, E.1 ≤ p ∧ p ≤ E.2 := by
  unfold mergeRanges
  obtain ⟨E, hEm, h1, h2⟩ :=
    scanRuns_filled_mem vals 0 0 p (vals.headD none) a (Nat.le_refl 0) hp hf
  exact ⟨E, hEm, by omega, by omega⟩

theorem scanRuns_start_filled (col : List (Option Str)) :
    ∀ (suffix : List (Option Str)) (start i : Nat) (cur : Option Str),
      col[start]? = some cur →
      (∀ k, suffix[k]? = col[i + k]?) →
      ∀ r ∈ scanRuns start cur i suffix, ∃ c, col[r.1]? = some c ∧ isFilled c = true := by
  intro suffix
  induction suffix with
  | nil =>
    intro start i cur hcol _ r hr
    rw [scanRuns] at hr
    by_cases hcond : isFilled cur = true ∧ start ≤ i - 1
    · rw [if_pos hcond] at hr
      obtain rfl : r = (start, i - 1) := by simpa using hr
      exact ⟨cur, hcol, hcond.1⟩
    · rw [if_neg hcond] at hr
      simp at hr
  | cons v rest ih =>
    intro start i cur hcol hsuf r hr
    rw [scanRuns] at hr
    have hv0 : col[i]? = some v := by
      have := hsuf 0
      simpa using this.symm
    have hsuf2 : ∀ k, rest[k]? = col[(i + 1) + k]? := by
      intro k
      have hh := hsuf (k + 1)
      rw [show i + (k + 1) = (i + 1) + k from by omega] at hh
      simpa using hh
    by_cases hvc : v ≠ cur
    · rw [if_pos hvc] at hr
      rcases List.mem_append.mp hr with hm | hm
      · by_cases hcond : isFilled cur = true ∧ start ≤ i - 1
        · rw [if_pos hcond] at hm
          obtain rfl : r = (start, i - 1) := by simpa using hm
          exact ⟨cur, hcol, hcond.1⟩
        · rw [if_neg hcond] at hm
          simp at hm
      · exact ih i (i + 1) v hv0 hsuf2 r hm
    · rw [if_neg hvc] at hr
      exact ih start (i + 1) cur hcol hsuf2 r hr

theorem mergeRanges_start_filled {m : List (Option Str)} :
    ∀ r ∈ mergeRanges m, ∃ c, m[r.1]? = some c ∧ isFilled c = true := by
  cases m with
  | nil =>
    intro r hr
    rw [show mergeRanges [] = [] from rfl] at hr
    simp at hr
  | cons c t =>
    rw [mergeRanges_cons]
    refine scanRuns_start_filled (c :: t) t 0 1 c (by simp) fun k => ?_
    rw [show (1 : Nat) + k = k + 1 from by omega]
    simp

/-! ### Claim theorem C8 -/

/-- C8: the vertical merge pass is idempotent on the worksheet state:
applying it twice yields the same cell values and the same stored merged
ranges as applying it once.  One pass leaves no two adjacent equal filled
cells, so a second pass only emits degenerate single-cell ranges at the
surviving run tops; each of those lies inside the stored range of the run
it tops, so the subset guard of `MultiCellRange.add` discards it, and
clearing a single-cell range changes no value.  The pass is defined on
the worksheet column alone and takes no occupancy input, so it does not
change the underlying occupancy data. -/
theorem c8_merge_idempotente :
    ∀ g : List (Option Str) × List (Nat × Nat), mergeGrid (mergeGrid g) = mergeGrid g := by
  intro g
  obtain ⟨vals, rs0⟩ := g
  unfold mergeGrid
  simp only
  have h1 : mergePassVals (mergePassVals vals) = mergePassVals vals :=
    mergePassVals_idem_of_chain (mergePassVals_chain vals)
  have h2 : List.foldl addRange (List.foldl addRange rs0 (mergeRanges vals))
      (mergeRanges (mergePassVals vals)) = List.foldl addRange rs0 (mergeRanges vals) := by
    apply foldl_addRange_id
    intro e he
    have hch := mergePassVals_chain vals
    have hdeg := mergeRanges_degenerate hch e he
    obtain ⟨c, hc, hcf⟩ := mergeRanges_start_filled e he
    have hpt := mergePassVals_getElem? vals e.1
    rw [hc] at hpt
    cases hv0 : vals[e.1]? with
    | none =>
      rw [hv0] at hpt
      simp at hpt
    | some v0 =>
      rw [hv0] at hpt
      simp only [Option.map_some', Option.some_inj] at hpt
      by_cases hcov : covered (mergeRanges vals) e.1 = true
      · rw [if_pos hcov] at hpt
        rw [hpt] at hcf
        simp [isFilled] at hcf
      · rw [if_neg hcov] at hpt
        obtain ⟨E, hEm, hE1, hE2⟩ := mergeRanges_filled_mem hv0 (by rw [← hpt]; exact hcf)
        have hcontE := foldl_addRange_contains (mergeRanges vals) rs0 E hEm
        rw [containsRange_eq_true] at hcontE
        obtain ⟨r0, hr0, hr01, hr02⟩ := hcontE
        rw [containsRange_eq_true]
        exact ⟨r0, hr0, by omega, by omega⟩
  rw [h1, h2]

end SolicitacaoSalas
